import Mathlib

/-!
Verification of `champion_round_based_analysis.py` from the TFT-Statistics
repository.  The script runs a MongoDB aggregation pipeline that filters and
shapes per-participant match records, folds the shaped records into a nested
results dictionary of running aggregates (count, cumulative placement) keyed
by round and by champion with hierarchical "total" rollups, and finally turns
every cumulative placement sum into an average.

The embedding models Python dictionaries as functions into `Option`, record
fields with exact integers, and placement sums/averages with exact rationals.
-/

namespace TFT

/-- A running aggregate, the innermost dictionaries of `results`
(`{'count': ..., 'avg_place': ...}` in the script): `avg_place` holds the
cumulative placement sum during the fold and the average after the final
pass (script lines 140-222). -/
structure Agg where
  count : ℕ
  avg_place : ℚ
deriving DecidableEq

/-- An outer key of the `results` dictionary: the string sentinel `'total'`
or a concrete `last_round` value.  In Python the two kinds of keys live in
one dictionary but an `int` key never equals the string `'total'`, which the
two constructors capture. -/
inductive OuterKey where
  | total
  | round (n : ℤ)
deriving DecidableEq

/-- An inner dictionary of `results`: string keys (champion names and the
sentinel `"total"`) to aggregates. -/
abbrev Bucket := String → Option Agg

/-- The `results` dictionary: outer keys to inner dictionaries. -/
abbrev Table := OuterKey → Option Bucket

/-- `results[r][c]`, as an optional aggregate. -/
def tableLookup (t : Table) (r : OuterKey) (c : String) : Option Agg :=
  (t r).bind fun b => b c

/-- One shaped record emitted by the aggregation pipeline: the fields
projected at script lines 67-73 (`num_units`, `units` as raw
`character_id` strings, `last_round`, `placement`). -/
structure Player where
  num_units : ℕ
  units : List String
  last_round : ℤ
  placement : ℤ
deriving DecidableEq

/-- `x.split('_')[-1]` (script line 195): the trailing `'_'`-delimited
segment of a raw unit identifier — everything after the last underscore, or
the whole string when it has none. -/
def lastSegment (x : String) : String :=
  ⟨(x.toList.reverse.takeWhile (fun ch => ch ≠ '_')).reverse⟩

/-- The `keys_list` built for one record (script lines 191-197): each raw
unit identifier mapped to its trailing segment (the `f'{x}'` formatting is
the identity on strings). -/
def keysOf (player : Player) : List String :=
  player.units.map lastSegment

/-- The duplicate-unit guard passes (script line 157):
`len(set(player['units'])) == num_units`. -/
def accepted (player : Player) : Prop :=
  player.units.dedup.length = player.num_units

instance (player : Player) : Decidable (accepted player) := by
  unfold accepted; infer_instance

/-- Create-or-increment of one inner-dictionary entry (script lines
200-208 and 210-217): if `key` is absent it is created as
`{'count': 1, 'avg_place': place}`, otherwise its count is incremented and
`place` is added to its cumulative sum. -/
def upsert (b : Bucket) (key : String) (place : ℚ) : Bucket := fun c =>
  if c = key then
    match b key with
    | none => some ⟨1, place⟩
    | some a => some ⟨a.count + 1, a.avg_place + place⟩
  else b c

/-- Unconditional `+= 1` / `+= place` on an inner-dictionary entry (script
lines 164-165 and 178-179); the script only ever performs it on keys that
are present, so an absent key is left absent. -/
def bumpExisting (b : Bucket) (key : String) (place : ℚ) : Bucket := fun c =>
  if c = key then (b key).map (fun a => ⟨a.count + 1, a.avg_place + place⟩) else b c

/-- Apply `f` to the inner dictionary stored at outer key `r` (if present). -/
def updateOuter (t : Table) (r : OuterKey) (f : Bucket → Bucket) : Table :=
  fun r2 => if r2 = r then (t r).map f else t r2

/-- The initial `results` dictionary (script lines 140-147), pre-seeded with
`results['total']['total'] = {'count': 0, 'avg_place': 0}`. -/
def initTable : Table := fun r =>
  if r = OuterKey.total then
    some (fun c => if c = "total" then some ⟨0, 0⟩ else none)
  else none

/-- The global rollup (script lines 164-165):
`results['total']['total']['count'] += 1` and
`results['total']['total']['avg_place'] += place`. -/
def totalStage (t : Table) (place : ℚ) : Table :=
  updateOuter t OuterKey.total (fun b => bumpExisting b "total" place)

/-- The per-round rollup (script lines 170-179): create the round bucket as
`{'total': {'count': 1, 'avg_place': place}}` on first sight, otherwise
increment its `'total'` entry. -/
def roundStage (t : Table) (lr : ℤ) (place : ℚ) : Table := fun r =>
  if r = OuterKey.round lr then
    match t (OuterKey.round lr) with
    | none => some (fun c => if c = "total" then some ⟨1, place⟩ else none)
    | some b => some (bumpExisting b "total" place)
  else t r

/-- The body of the `for key in keys_list` loop (script lines 200-217): one
create-or-increment in the round bucket `lr` followed by one in the
`'total'` bucket. -/
def keyStep (lr : OuterKey) (place : ℚ) (res : Table) (key : String) : Table :=
  updateOuter (updateOuter res lr (fun b => upsert b key place))
    OuterKey.total (fun b => upsert b key place)

/-- One iteration of the reduce loop (script lines 149-217): the
duplicate-unit guard, the global `['total']['total']` rollup, the per-round
`[last_round]['total']` rollup (creating the round bucket on first sight),
and one create-or-increment per entry of `keys_list` in both the round
bucket and the `'total'` bucket. -/
def foldStep (results : Table) (player : Player) : Table :=
  if player.units.dedup.length ≠ player.num_units then results
  else
    (keysOf player).foldl
      (keyStep (OuterKey.round player.last_round) (player.placement : ℚ))
      (roundStage (totalStage results (player.placement : ℚ))
        player.last_round (player.placement : ℚ))

/-- The whole reduce stage: fold every shaped record of the stream into the
pre-seeded dictionary, in stream order. -/
def foldAll (ps : List Player) : Table :=
  ps.foldl foldStep initTable

/-- The final pass (script lines 220-222): every entry's `avg_place` becomes
`avg_place / count`. -/
def finalize (t : Table) : Table := fun r =>
  (t r).map fun b c => (b c).map fun a => ⟨a.count, a.avg_place / (a.count : ℚ)⟩

end TFT

/-! ### The aggregation pipeline (script lines 32-74) -/

namespace TFT

/-- One entry of a participant's `units` array; only `character_id` is
consumed (script line 61). -/
structure MatchUnit where
  character_id : String
deriving DecidableEq

/-- One participant inside `info.participants`. -/
structure Participant where
  units : List MatchUnit
  last_round : ℤ
  placement : ℤ
deriving DecidableEq

/-- One match document: `info.queue_id` and `info.participants`. -/
structure MatchInfo where
  queue_id : ℤ
  participants : List Participant
deriving DecidableEq

/-- The `$nin` exclusion list of carousel/PVE rounds (script line 53). -/
def excludedRounds : List ℤ := [11, 15, 18, 22, 25, 29, 32, 36, 39, 43, 46, 50]

/-- The aggregation pipeline (script lines 32-74): keep ranked matches
(`queue_id == 1100`), unwind participants, compute `num_units` as the size
of the unit list, keep participants with at least 6 units, drop the excluded
`last_round` values, map each unit to its `character_id`, and project the
four fields of a shaped record. -/
def pipeline (ms : List MatchInfo) : List Player :=
  ((((ms.filter (fun m => m.queue_id = 1100)).flatMap
      (fun m => m.participants)).filter
        (fun p => 6 ≤ p.units.length)).filter
          (fun p => p.last_round ∉ excludedRounds)).map
            (fun p =>
              { num_units := p.units.length
                units := p.units.map MatchUnit.character_id
                last_round := p.last_round
                placement := p.placement })

end TFT

/-! ### Specification-level counting functions

Reference quantities computed directly from the input stream, used to state
what each table entry holds after the fold. -/

namespace TFT

/-- Whether a record falls under an outer key: every record falls under
`'total'`, and under `.round n` exactly when its `last_round` is `n`. -/
def matchesRound (p : Player) (r : OuterKey) : Bool :=
  match r with
  | OuterKey.total => true
  | OuterKey.round n => p.last_round == n

/-- The accepted records of the stream falling under outer key `r`. -/
def roundPs (ps : List Player) (r : OuterKey) : List Player :=
  ps.filter fun p => (p.units.dedup.length == p.num_units) && matchesRound p r

/-- Number of accepted records under outer key `r`. -/
def rollCnt (ps : List Player) (r : OuterKey) : ℕ :=
  (roundPs ps r).length

/-- Sum of the placements of the accepted records under outer key `r`. -/
def rollSum (ps : List Player) (r : OuterKey) : ℚ :=
  ((roundPs ps r).map fun p => (p.placement : ℚ)).sum

/-- Total number of occurrences of the champion key `c` in the `keys_list`s
of the accepted records under outer key `r`. -/
def cnt (ps : List Player) (r : OuterKey) (c : String) : ℕ :=
  ((roundPs ps r).map fun p => (keysOf p).count c).sum

/-- Placement-weighted version of `cnt`: each record contributes its
placement once per occurrence of `c` in its `keys_list`. -/
def wsum (ps : List Player) (r : OuterKey) (c : String) : ℚ :=
  ((roundPs ps r).map fun p => ((keysOf p).count c : ℚ) * (p.placement : ℚ)).sum

/-- Number of accepted records under outer key `r` whose derived champion
keys contain `c` (each record counted once, however many of its units map
to `c`). -/
def recCnt (ps : List Player) (r : OuterKey) (c : String) : ℕ :=
  ((roundPs ps r).filter fun p => (keysOf p).contains c).length

/-- Predicted content of `results[r][c]` after folding the stream `ps`:
presence and value of every entry, stated directly from the input. -/
def specLookup (ps : List Player) (r : OuterKey) (c : String) : Option Agg :=
  if c = "total" then
    if r = OuterKey.total ∨ rollCnt ps r ≠ 0 then
      some ⟨rollCnt ps r + cnt ps r c, rollSum ps r + wsum ps r c⟩
    else none
  else
    if cnt ps r c = 0 then none
    else some ⟨cnt ps r c, wsum ps r c⟩

/-- Apply `m` create-or-increments with placement `place` to one optional
aggregate. -/
def addN (m : ℕ) (place : ℚ) : Option Agg → Option Agg
  | none => if m = 0 then none else some ⟨m, (m : ℚ) * place⟩
  | some a => some ⟨a.count + m, a.avg_place + (m : ℚ) * place⟩

/-- The bucket invariant of the claim: every outer key present in the table
holds a bucket in which the inner key `'total'` is present. -/
def TableInv (t : Table) : Prop :=
  ∀ r b, t r = some b → (b "total").isSome

/-- `TableInv` together with presence of the `'total'` outer bucket itself
(both hold for the pre-seeded table and are preserved by the fold). -/
def StrongInv (t : Table) : Prop :=
  (t OuterKey.total).isSome ∧ TableInv t

/-- Modelled from the spec: the commutative pairwise merge of two partial
aggregates ("merging partial folds by pairwise `{count, sum}` addition per
key"); the script itself folds strictly sequentially and has no merge. -/
def mergeAgg (a1 a2 : Agg) : Agg :=
  ⟨a1.count + a2.count, a1.avg_place + a2.avg_place⟩

/-- Modelled from the spec: pairwise merge of two inner dictionaries, adding
aggregates on common keys and keeping one-sided keys unchanged. -/
def mergeBucket (b1 b2 : Bucket) : Bucket := fun c =>
  match b1 c, b2 c with
  | none, o => o
  | some a, none => some a
  | some a1, some a2 => some (mergeAgg a1 a2)

/-- Modelled from the spec: pairwise merge of two partial result tables,
merging buckets on common outer keys and keeping one-sided buckets. -/
def mergeTable (t1 t2 : Table) : Table := fun r =>
  match t1 r, t2 r with
  | none, o => o
  | some b, none => some b
  | some b1, some b2 => some (mergeBucket b1 b2)

/-- Pairwise merge of two optional aggregates (the entry-level view of
`mergeTable`). -/
def addOpt (o1 o2 : Option Agg) : Option Agg :=
  match o1, o2 with
  | none, o => o
  | some a, none => some a
  | some a1, some a2 => some (mergeAgg a1 a2)

end TFT

/-! ### Basic lemmas about the table operations -/

namespace TFT

theorem updateOuter_same (t : Table) (r : OuterKey) (f : Bucket → Bucket) :
    updateOuter t r f r = (t r).map f := by
  simp [updateOuter]

theorem updateOuter_ne (t : Table) {r r2 : OuterKey} (f : Bucket → Bucket)
    (h : r2 ≠ r) : updateOuter t r f r2 = t r2 := by
  simp [updateOuter, h]

theorem addN_zero (place : ℚ) (o : Option Agg) : addN 0 place o = o := by
  cases o <;> simp [addN]

theorem addN_some (m : ℕ) (place : ℚ) (a : Agg) :
    addN m place (some a) = some ⟨a.count + m, a.avg_place + (m : ℚ) * place⟩ := rfl

theorem addN_isSome (m : ℕ) (place : ℚ) (a : Agg) :
    (addN m place (some a)).isSome := by
  simp [addN]

theorem addN_none (m : ℕ) (place : ℚ) (h : m ≠ 0) :
    addN m place none = some ⟨m, (m : ℚ) * place⟩ := by
  simp [addN, h]

theorem addN_addN (m k : ℕ) (place : ℚ) (o : Option Agg) :
    addN m place (addN k place o) = addN (k + m) place o := by
  cases o with
  | none =>
    by_cases hk : k = 0
    · subst hk; rw [addN_zero, Nat.zero_add]
    · have hkm : k + m ≠ 0 := by omega
      simp only [addN, if_neg hk, if_neg hkm]
      refine congrArg some ?_
      congr 1
      push_cast
      ring
  | some a =>
    simp only [addN]
    refine congrArg some ?_
    congr 1
    · omega
    · push_cast; ring

theorem upsert_apply (b : Bucket) (key : String) (place : ℚ) (c : String) :
    upsert b key place c = if c = key then addN 1 place (b key) else b c := by
  unfold upsert
  by_cases hc : c = key
  · cases h : b key <;> simp [hc, h, addN]
  · simp [hc]

theorem keyStep_isSome (lr : OuterKey) (place : ℚ) (t : Table) (key : String)
    (r : OuterKey) : ((keyStep lr place t key) r).isSome = (t r).isSome := by
  by_cases h0 : lr = OuterKey.total
  · subst h0
    by_cases h1 : r = OuterKey.total <;> simp [keyStep, updateOuter, h1]
  · have h0' : ¬ (OuterKey.total = lr) := fun h => h0 h.symm
    by_cases h1 : r = OuterKey.total <;> by_cases h2 : r = lr <;>
      simp [keyStep, updateOuter, h0, h0', h1, h2]

theorem keyStep_lookup (lr : OuterKey) (hne : lr ≠ OuterKey.total) (place : ℚ)
    (t : Table) (b1 b2 : Bucket) (h1 : t lr = some b1) (h2 : t OuterKey.total = some b2)
    (key : String) (r : OuterKey) (c : String) :
    tableLookup (keyStep lr place t key) r c =
      if (r = lr ∨ r = OuterKey.total) ∧ c = key then addN 1 place (tableLookup t r c)
      else tableLookup t r c := by
  by_cases hrt : r = OuterKey.total
  · subst hrt
    have hrl : ¬ (OuterKey.total = lr) := fun h => hne h.symm
    by_cases hc : c = key <;>
      simp [keyStep, updateOuter, tableLookup, upsert_apply, h1, h2, hrl, hc]
  · by_cases hrl : r = lr
    · subst hrl
      by_cases hc : c = key <;>
        simp [keyStep, updateOuter, tableLookup, upsert_apply, h1, h2, hrt, hc]
    · simp [keyStep, updateOuter, tableLookup, hrt, hrl]

theorem foldl_keyStep_isSome (lr : OuterKey) (place : ℚ) (keys : List String)
    (t : Table) (r : OuterKey) :
    ((keys.foldl (keyStep lr place) t) r).isSome = (t r).isSome := by
  induction keys generalizing t with
  | nil => rfl
  | cons k ks ih => rw [List.foldl_cons, ih, keyStep_isSome]

theorem foldl_keyStep_lookup (lr : OuterKey) (hne : lr ≠ OuterKey.total) (place : ℚ)
    (keys : List String) (t : Table) (h1 : (t lr).isSome) (h2 : (t OuterKey.total).isSome)
    (r : OuterKey) (c : String) :
    tableLookup (keys.foldl (keyStep lr place) t) r c =
      if r = lr ∨ r = OuterKey.total then addN (keys.count c) place (tableLookup t r c)
      else tableLookup t r c := by
  induction keys generalizing t with
  | nil => simp [addN_zero]
  | cons k ks ih =>
    rw [List.foldl_cons]
    obtain ⟨b1, hb1⟩ := Option.isSome_iff_exists.mp h1
    obtain ⟨b2, hb2⟩ := Option.isSome_iff_exists.mp h2
    rw [ih (keyStep lr place t k) (by rw [keyStep_isSome]; exact h1)
      (by rw [keyStep_isSome]; exact h2)]
    rw [keyStep_lookup lr hne place t b1 b2 hb1 hb2 k r c]
    by_cases hr : r = lr ∨ r = OuterKey.total
    · by_cases hc : c = k
      · rw [if_pos hr, if_pos ⟨hr, hc⟩, if_pos hr, addN_addN]
        congr 1
        subst hc
        simp [List.count_cons]
        omega
      · rw [if_pos hr, if_neg (by tauto), if_pos hr]
        congr 1
        simp [List.count_cons, hc]
    · rw [if_neg hr, if_neg (by tauto), if_neg hr]

theorem totalStage_isSome (t : Table) (place : ℚ) (r : OuterKey) :
    ((totalStage t place) r).isSome = (t r).isSome := by
  by_cases h : r = OuterKey.total <;> simp [totalStage, updateOuter, h]

theorem totalStage_lookup (t : Table) (place : ℚ) (b : Bucket)
    (hb : t OuterKey.total = some b) (hbt : (b "total").isSome)
    (r : OuterKey) (c : String) :
    tableLookup (totalStage t place) r c =
      if r = OuterKey.total ∧ c = "total" then addN 1 place (tableLookup t r c)
      else tableLookup t r c := by
  obtain ⟨a, ha⟩ := Option.isSome_iff_exists.mp hbt
  by_cases hr : r = OuterKey.total
  · subst hr
    by_cases hc : c = "total" <;>
      simp [totalStage, updateOuter, tableLookup, hb, ha, hc, bumpExisting, addN]
  · simp [totalStage, updateOuter, tableLookup, hr]

theorem roundStage_isSome (t : Table) (lr : ℤ) (place : ℚ) (r : OuterKey) :
    ((roundStage t lr place) r).isSome ↔ ((t r).isSome ∨ r = OuterKey.round lr) := by
  by_cases hr : r = OuterKey.round lr
  · subst hr
    cases h : t (OuterKey.round lr) <;> simp [roundStage, h]
  · simp [roundStage, hr]

theorem roundStage_lookup (t : Table) (lr : ℤ) (place : ℚ)
    (hb : ∀ b, t (OuterKey.round lr) = some b → (b "total").isSome)
    (r : OuterKey) (c : String) :
    tableLookup (roundStage t lr place) r c =
      if r = OuterKey.round lr ∧ c = "total" then addN 1 place (tableLookup t r c)
      else tableLookup t r c := by
  by_cases hr : r = OuterKey.round lr
  · subst hr
    cases h : t (OuterKey.round lr) with
    | none =>
      by_cases hc : c = "total" <;> simp [roundStage, tableLookup, h, hc, addN]
    | some b =>
      obtain ⟨a, ha⟩ := Option.isSome_iff_exists.mp (hb b h)
      by_cases hc : c = "total" <;>
        simp [roundStage, tableLookup, h, ha, hc, bumpExisting, addN]
  · simp [roundStage, tableLookup, hr]

theorem foldStep_rejected (t : Table) (p : Player)
    (h : p.units.dedup.length ≠ p.num_units) : foldStep t p = t := by
  unfold foldStep
  rw [if_pos h]

theorem foldStep_accepted_def (t : Table) (p : Player) (h : accepted p) :
    foldStep t p =
      (keysOf p).foldl (keyStep (OuterKey.round p.last_round) (p.placement : ℚ))
        (roundStage (totalStage t (p.placement : ℚ)) p.last_round
          (p.placement : ℚ)) := by
  unfold foldStep
  rw [if_neg (fun hne => hne h)]

theorem foldStep_isSome (t : Table) (p : Player) (r : OuterKey) :
    ((foldStep t p) r).isSome ↔
      ((t r).isSome ∨ (accepted p ∧ r = OuterKey.round p.last_round)) := by
  by_cases hacc : accepted p
  · rw [foldStep_accepted_def t p hacc, foldl_keyStep_isSome]
    have h2 := roundStage_isSome (totalStage t (p.placement : ℚ)) p.last_round
      (p.placement : ℚ) r
    rw [totalStage_isSome] at h2
    rw [h2]
    simp [hacc]
  · rw [foldStep_rejected t p hacc]
    simp [hacc]

theorem foldStep_lookup (t : Table) (p : Player) (hInv : StrongInv t)
    (hacc : accepted p) (r : OuterKey) (c : String) :
    tableLookup (foldStep t p) r c =
      if r = OuterKey.total ∨ r = OuterKey.round p.last_round then
        addN ((keysOf p).count c) (p.placement : ℚ)
          (if c = "total" then addN 1 (p.placement : ℚ) (tableLookup t r c)
           else tableLookup t r c)
      else tableLookup t r c := by
  obtain ⟨htot, hinv⟩ := hInv
  obtain ⟨b, hb⟩ := Option.isSome_iff_exists.mp htot
  have hbt : (b "total").isSome := hinv _ b hb
  rw [foldStep_accepted_def t p hacc]
  have ht1tot : ((totalStage t (p.placement : ℚ)) OuterKey.total).isSome := by
    rw [totalStage_isSome]; exact htot
  have ht1rb : ∀ bb, (totalStage t (p.placement : ℚ)) (OuterKey.round p.last_round) = some bb →
      (bb "total").isSome := by
    intro bb hbb
    rw [totalStage, updateOuter_ne _ _ (by simp)] at hbb
    exact hinv _ _ hbb
  have ht2lr : ((roundStage (totalStage t (p.placement : ℚ)) p.last_round
      (p.placement : ℚ)) (OuterKey.round p.last_round)).isSome := by
    rw [roundStage_isSome]; right; rfl
  have ht2tot : ((roundStage (totalStage t (p.placement : ℚ)) p.last_round
      (p.placement : ℚ)) OuterKey.total).isSome := by
    rw [roundStage_isSome]; left; exact ht1tot
  rw [foldl_keyStep_lookup _ (by simp) _ _ _ ht2lr ht2tot]
  rw [roundStage_lookup _ _ _ ht1rb]
  rw [totalStage_lookup _ _ b hb hbt]
  by_cases hr1 : r = OuterKey.total
  · subst hr1
    have hne : ¬ (OuterKey.total = OuterKey.round p.last_round) := by simp
    by_cases hc : c = "total" <;> simp [hne, hc]
  · by_cases hr2 : r = OuterKey.round p.last_round
    · subst hr2
      by_cases hc : c = "total" <;> simp [hr1, hc]
    · simp [hr1, hr2]

end TFT

/-! ### Preservation of the bucket invariant -/

namespace TFT

theorem bucketTotal_upsert (b : Bucket) (key : String) (place : ℚ)
    (h : (b "total").isSome) : ((upsert b key place) "total").isSome := by
  rw [upsert_apply]
  by_cases hk : ("total" : String) = key
  · rw [if_pos hk, ← hk]
    obtain ⟨a, ha⟩ := Option.isSome_iff_exists.mp h
    simp [ha, addN]
  · rw [if_neg hk]; exact h

theorem bucketTotal_bump (b : Bucket) (key : String) (place : ℚ)
    (h : (b "total").isSome) : ((bumpExisting b key place) "total").isSome := by
  unfold bumpExisting
  by_cases hk : ("total" : String) = key
  · rw [if_pos hk, ← hk]
    obtain ⟨a, ha⟩ := Option.isSome_iff_exists.mp h
    simp [ha]
  · rw [if_neg hk]; exact h

theorem tableInv_updateOuter (t : Table) (r0 : OuterKey) (f : Bucket → Bucket)
    (hf : ∀ b, (b "total").isSome → ((f b) "total").isSome)
    (h : TableInv t) : TableInv (updateOuter t r0 f) := by
  intro r b hb
  unfold updateOuter at hb
  by_cases hr : r = r0
  · rw [if_pos hr] at hb
    obtain ⟨b0, hb0, hfb0⟩ := Option.map_eq_some'.mp hb
    exact hfb0 ▸ hf b0 (h r0 b0 hb0)
  · rw [if_neg hr] at hb
    exact h r b hb

theorem tableInv_totalStage (t : Table) (place : ℚ) (h : TableInv t) :
    TableInv (totalStage t place) :=
  tableInv_updateOuter t _ _ (fun b hb => bucketTotal_bump b _ place hb) h

theorem tableInv_roundStage (t : Table) (lr : ℤ) (place : ℚ) (h : TableInv t) :
    TableInv (roundStage t lr place) := by
  intro r b hb
  unfold roundStage at hb
  by_cases hr : r = OuterKey.round lr
  · rw [if_pos hr] at hb
    cases ht : t (OuterKey.round lr) with
    | none =>
      rw [ht] at hb
      simp only [Option.some.injEq] at hb
      subst hb
      simp
    | some b0 =>
      rw [ht] at hb
      simp only [Option.some.injEq] at hb
      subst hb
      exact bucketTotal_bump b0 _ place (h _ b0 ht)
  · rw [if_neg hr] at hb
    exact h r b hb

theorem tableInv_keyStep (lr : OuterKey) (place : ℚ) (t : Table) (key : String)
    (h : TableInv t) : TableInv (keyStep lr place t key) :=
  tableInv_updateOuter _ _ _ (fun b hb => bucketTotal_upsert b _ place hb)
    (tableInv_updateOuter _ _ _ (fun b hb => bucketTotal_upsert b _ place hb) h)

theorem tableInv_foldl_keyStep (lr : OuterKey) (place : ℚ) (keys : List String)
    (t : Table) (h : TableInv t) :
    TableInv (keys.foldl (keyStep lr place) t) := by
  induction keys generalizing t with
  | nil => exact h
  | cons k ks ih => exact ih _ (tableInv_keyStep lr place t k h)

theorem tableInv_foldStep (t : Table) (p : Player) (h : TableInv t) :
    TableInv (foldStep t p) := by
  unfold foldStep
  by_cases hg : p.units.dedup.length ≠ p.num_units
  · rw [if_pos hg]; exact h
  · rw [if_neg hg]
    exact tableInv_foldl_keyStep _ _ _ _
      (tableInv_roundStage _ _ _ (tableInv_totalStage _ _ h))

theorem tableInv_initTable : TableInv initTable := by
  intro r b hb
  unfold initTable at hb
  by_cases hr : r = OuterKey.total
  · rw [if_pos hr] at hb
    simp only [Option.some.injEq] at hb
    subst hb
    simp
  · rw [if_neg hr] at hb
    exact absurd hb (by simp)

theorem strongInv_initTable : StrongInv initTable :=
  ⟨by simp [initTable], tableInv_initTable⟩

theorem strongInv_foldStep (t : Table) (p : Player) (h : StrongInv t) :
    StrongInv (foldStep t p) := by
  refine ⟨?_, tableInv_foldStep t p h.2⟩
  rw [foldStep_isSome]
  exact Or.inl h.1

theorem strongInv_foldAll (ps : List Player) : StrongInv (foldAll ps) := by
  suffices h : ∀ t, StrongInv t → StrongInv (ps.foldl foldStep t) from
    h initTable strongInv_initTable
  induction ps with
  | nil => exact fun t ht => ht
  | cons p ps ih => exact fun t ht => ih _ (strongInv_foldStep t p ht)

end TFT

/-! ### Decomposition lemmas for the specification-level counts -/

namespace TFT

theorem matchesRound_iff (p : Player) (r : OuterKey) :
    matchesRound p r = true ↔ (r = OuterKey.total ∨ r = OuterKey.round p.last_round) := by
  cases r with
  | total => simp [matchesRound]
  | round n =>
    simp only [matchesRound, beq_iff_eq, OuterKey.round.injEq]
    constructor
    · intro h; exact Or.inr (by rw [h])
    · rintro (h | h)
      · exact absurd h (by simp)
      · exact h.symm

theorem matchesRound_self (p : Player) :
    matchesRound p (OuterKey.round p.last_round) = true := by
  simp [matchesRound]

theorem roundPs_append_pos (ps : List Player) (p : Player) (r : OuterKey)
    (h1 : accepted p) (h2 : matchesRound p r = true) :
    roundPs (ps ++ [p]) r = roundPs ps r ++ [p] := by
  unfold roundPs
  rw [List.filter_append]
  congr 1
  simp [accepted] at h1
  simp [List.filter, h1, h2]

theorem roundPs_append_neg (ps : List Player) (p : Player) (r : OuterKey)
    (h : ¬ (accepted p ∧ matchesRound p r = true)) :
    roundPs (ps ++ [p]) r = roundPs ps r := by
  unfold roundPs
  rw [List.filter_append]
  have : ((p.units.dedup.length == p.num_units) && matchesRound p r) = false := by
    by_cases h1 : accepted p
    · have h2 : matchesRound p r = false :=
        Bool.eq_false_iff.mpr (fun hm => h ⟨h1, hm⟩)
      simp [h2]
    · have h1' : (p.units.dedup.length == p.num_units) = false := by
        simp [accepted] at h1
        simp [h1]
      simp [h1']
  simp [List.filter, this]

theorem roundPs_nil (r : OuterKey) : roundPs [] r = [] := rfl

theorem roundPs_eq_nil (ps : List Player) (r : OuterKey) (h : rollCnt ps r = 0) :
    roundPs ps r = [] :=
  List.length_eq_zero.mp h

theorem rollSum_of_rollCnt_zero (ps : List Player) (r : OuterKey)
    (h : rollCnt ps r = 0) : rollSum ps r = 0 := by
  unfold rollSum
  rw [roundPs_eq_nil ps r h]
  rfl

theorem cnt_of_rollCnt_zero (ps : List Player) (r : OuterKey) (c : String)
    (h : rollCnt ps r = 0) : cnt ps r c = 0 := by
  unfold cnt
  rw [roundPs_eq_nil ps r h]
  rfl

theorem wsum_of_rollCnt_zero (ps : List Player) (r : OuterKey) (c : String)
    (h : rollCnt ps r = 0) : wsum ps r c = 0 := by
  unfold wsum
  rw [roundPs_eq_nil ps r h]
  rfl

theorem wsum_of_cnt_zero (ps : List Player) (r : OuterKey) (c : String)
    (h : cnt ps r c = 0) : wsum ps r c = 0 := by
  unfold cnt at h
  unfold wsum
  rw [List.sum_eq_zero_iff] at h
  refine List.sum_eq_zero ?_
  intro x hx
  obtain ⟨q, hq, rfl⟩ := List.mem_map.mp hx
  have hz : (keysOf q).count c = 0 := h _ (List.mem_map_of_mem _ hq)
  rw [hz]
  simp

theorem specLookup_append_untouched (ps : List Player) (p : Player) (r : OuterKey)
    (c : String) (h : roundPs (ps ++ [p]) r = roundPs ps r) :
    specLookup (ps ++ [p]) r c = specLookup ps r c := by
  unfold specLookup rollCnt rollSum cnt wsum
  rw [h]

theorem foldAll_append_singleton (ps : List Player) (p : Player) :
    foldAll (ps ++ [p]) = foldStep (foldAll ps) p := by
  unfold foldAll
  rw [List.foldl_append]
  rfl

end TFT

/-! ### The main characterization of the folded table -/

namespace TFT

theorem foldAll_lookup (ps : List Player) (r : OuterKey) (c : String) :
    tableLookup (foldAll ps) r c = specLookup ps r c := by
  induction ps using List.reverseRecOn with
  | nil =>
    by_cases hr : r = OuterKey.total <;> by_cases hc : c = "total" <;>
      simp [foldAll, initTable, tableLookup, specLookup, rollCnt, rollSum, cnt, wsum,
        roundPs, hr, hc]
  | append_singleton ps p ih =>
    rw [foldAll_append_singleton]
    by_cases hacc : accepted p
    · rw [foldStep_lookup _ p (strongInv_foldAll ps) hacc, ih]
      by_cases hm : matchesRound p r = true
      · have hr : r = OuterKey.total ∨ r = OuterKey.round p.last_round :=
          (matchesRound_iff p r).mp hm
        rw [if_pos hr]
        have hq := roundPs_append_pos ps p r hacc hm
        have hRC : rollCnt (ps ++ [p]) r = rollCnt ps r + 1 := by
          unfold rollCnt; rw [hq]; simp
        have hRS : rollSum (ps ++ [p]) r = rollSum ps r + (p.placement : ℚ) := by
          unfold rollSum; rw [hq]; simp
        have hC : cnt (ps ++ [p]) r c = cnt ps r c + (keysOf p).count c := by
          unfold cnt; rw [hq]; simp
        have hW : wsum (ps ++ [p]) r c
            = wsum ps r c + ((keysOf p).count c : ℚ) * (p.placement : ℚ) := by
          unfold wsum; rw [hq]; simp
        by_cases hc : c = "total"
        · subst hc
          rw [if_pos rfl]
          unfold specLookup
          rw [if_pos rfl, if_pos rfl, hRC, hRS, hC, hW,
            if_pos (Or.inr (Nat.succ_ne_zero _))]
          by_cases hp : r = OuterKey.total ∨ rollCnt ps r ≠ 0
          · rw [if_pos hp, addN_some, addN_some]
            simp only [Option.some.injEq, Agg.mk.injEq]
            refine ⟨by omega, by push_cast; ring⟩
          · rw [if_neg hp]
            push_neg at hp
            have hR0 : rollCnt ps r = 0 := hp.2
            rw [hR0, rollSum_of_rollCnt_zero ps r hR0,
              cnt_of_rollCnt_zero ps r _ hR0, wsum_of_rollCnt_zero ps r _ hR0,
              addN_none 1 _ one_ne_zero, addN_some]
            simp only [Option.some.injEq, Agg.mk.injEq]
            refine ⟨by omega, by push_cast; ring⟩
        · rw [if_neg hc]
          unfold specLookup
          rw [if_neg hc, if_neg hc, hC, hW]
          by_cases hN : cnt ps r c = 0
          · have hW0 := wsum_of_cnt_zero ps r c hN
            rw [if_pos hN, hN, hW0]
            by_cases hm0 : (keysOf p).count c = 0
            · have hz : (0 : ℕ) + (keysOf p).count c = 0 := by omega
              rw [hm0, addN_zero, if_pos (hm0 ▸ hz)]
            · have hmn : ¬ ((0 : ℕ) + (keysOf p).count c = 0) := by omega
              rw [addN_none _ _ hm0, if_neg hmn]
              simp only [Option.some.injEq, Agg.mk.injEq]
              refine ⟨by omega, by ring⟩
          · have hmn : ¬ (cnt ps r c + (keysOf p).count c = 0) := by omega
            rw [if_neg hN, if_neg hmn, addN_some]
      · have hr : ¬ (r = OuterKey.total ∨ r = OuterKey.round p.last_round) := by
          rw [← matchesRound_iff p r]
          simp [hm]
        rw [if_neg hr,
          specLookup_append_untouched ps p r c
            (roundPs_append_neg ps p r (fun hh => hm hh.2))]
    · rw [foldStep_rejected _ p hacc, ih,
        specLookup_append_untouched ps p r c
          (roundPs_append_neg ps p r (fun hh => hacc hh.1))]

theorem foldAll_outer_isSome (ps : List Player) (r : OuterKey) :
    ((foldAll ps) r).isSome ↔ (r = OuterKey.total ∨ rollCnt ps r ≠ 0) := by
  induction ps using List.reverseRecOn with
  | nil =>
    unfold foldAll rollCnt
    rw [roundPs_nil]
    by_cases hr : r = OuterKey.total <;> simp [initTable, hr]
  | append_singleton ps p ih =>
    rw [foldAll_append_singleton, foldStep_isSome, ih]
    by_cases hb : accepted p ∧ matchesRound p r = true
    · have hRC : rollCnt (ps ++ [p]) r = rollCnt ps r + 1 := by
        unfold rollCnt; rw [roundPs_append_pos ps p r hb.1 hb.2]; simp
      rw [hRC]
      constructor
      · rintro ((h | h) | h)
        · exact Or.inl h
        · exact Or.inr (by omega)
        · exact Or.inr (by omega)
      · rintro (h | h)
        · exact Or.inl (Or.inl h)
        · rcases (matchesRound_iff p r).mp hb.2 with h2 | h2
          · exact Or.inl (Or.inl h2)
          · exact Or.inr ⟨hb.1, h2⟩
    · have hRC : rollCnt (ps ++ [p]) r = rollCnt ps r := by
        unfold rollCnt; rw [roundPs_append_neg ps p r hb]
      rw [hRC]
      constructor
      · rintro ((h | h) | ⟨hacc, hr⟩)
        · exact Or.inl h
        · exact Or.inr h
        · subst hr
          exact absurd ⟨hacc, matchesRound_self p⟩ hb
      · rintro (h | h)
        · exact Or.inl (Or.inl h)
        · exact Or.inl (Or.inr h)

theorem finalize_lookup (t : Table) (r : OuterKey) (c : String) :
    tableLookup (finalize t) r c =
      (tableLookup t r c).map fun a => ⟨a.count, a.avg_place / (a.count : ℚ)⟩ := by
  unfold finalize tableLookup
  cases h : t r <;> simp [h]

theorem finalize_none (t : Table) (r : OuterKey) :
    (finalize t) r = none ↔ t r = none := by
  cases h : t r <;> simp [finalize, h]

theorem finalize_isSome (t : Table) (r : OuterKey) :
    ((finalize t) r).isSome = (t r).isSome := by
  cases h : t r <;> simp [finalize, h]

theorem table_ext (t1 t2 : Table)
    (h1 : ∀ r, (t1 r).isSome ↔ (t2 r).isSome)
    (h2 : ∀ r c, tableLookup t1 r c = tableLookup t2 r c) : t1 = t2 := by
  funext r
  cases ht1 : t1 r with
  | none =>
    cases ht2 : t2 r with
    | none => rfl
    | some b2 => exact absurd ((h1 r).mpr (by simp [ht2])) (by simp [ht1])
  | some b1 =>
    cases ht2 : t2 r with
    | none => exact absurd ((h1 r).mp (by simp [ht1])) (by simp [ht2])
    | some b2 =>
      refine congrArg some ?_
      funext c
      have h := h2 r c
      rw [tableLookup, tableLookup, ht1, ht2] at h
      simpa using h

end TFT

/-! ### Append and merge lemmas for the specification-level counts -/

namespace TFT

theorem roundPs_append (ps qs : List Player) (r : OuterKey) :
    roundPs (ps ++ qs) r = roundPs ps r ++ roundPs qs r := by
  unfold roundPs
  exact List.filter_append _ _

theorem rollCnt_append (ps qs : List Player) (r : OuterKey) :
    rollCnt (ps ++ qs) r = rollCnt ps r + rollCnt qs r := by
  unfold rollCnt
  rw [roundPs_append, List.length_append]

theorem rollSum_append (ps qs : List Player) (r : OuterKey) :
    rollSum (ps ++ qs) r = rollSum ps r + rollSum qs r := by
  unfold rollSum
  rw [roundPs_append, List.map_append, List.sum_append]

theorem cnt_append (ps qs : List Player) (r : OuterKey) (c : String) :
    cnt (ps ++ qs) r c = cnt ps r c + cnt qs r c := by
  unfold cnt
  rw [roundPs_append, List.map_append, List.sum_append]

theorem wsum_append (ps qs : List Player) (r : OuterKey) (c : String) :
    wsum (ps ++ qs) r c = wsum ps r c + wsum qs r c := by
  unfold wsum
  rw [roundPs_append, List.map_append, List.sum_append]

theorem specLookup_comm (qs ps : List Player) (r : OuterKey) (c : String) :
    specLookup (ps ++ qs) r c = specLookup (qs ++ ps) r c := by
  unfold specLookup
  rw [rollCnt_append, rollCnt_append, rollSum_append, rollSum_append,
    cnt_append, cnt_append, wsum_append, wsum_append,
    Nat.add_comm (rollCnt qs r) (rollCnt ps r),
    Nat.add_comm (cnt qs r c) (cnt ps r c),
    add_comm (rollSum qs r) (rollSum ps r),
    add_comm (wsum qs r c) (wsum ps r c)]

theorem specLookup_merge (ps qs : List Player) (r : OuterKey) (c : String) :
    addOpt (specLookup ps r c) (specLookup qs r c) = specLookup (ps ++ qs) r c := by
  unfold specLookup
  rw [rollCnt_append, rollSum_append, cnt_append, wsum_append]
  by_cases hc : c = "total"
  · rw [if_pos hc, if_pos hc, if_pos hc]
    by_cases hA : r = OuterKey.total ∨ rollCnt ps r ≠ 0
    · by_cases hB : r = OuterKey.total ∨ rollCnt qs r ≠ 0
      · have hC : r = OuterKey.total ∨ rollCnt ps r + rollCnt qs r ≠ 0 := by
          rcases hA with h | h
          · exact Or.inl h
          · exact Or.inr (by omega)
        rw [if_pos hA, if_pos hB, if_pos hC]
        simp only [addOpt, mergeAgg, Option.some.injEq, Agg.mk.injEq]
        refine ⟨by omega, by ring⟩
      · have hB0 : rollCnt qs r = 0 := not_not.mp (not_or.mp hB).2
        have hC : r = OuterKey.total ∨ rollCnt ps r + rollCnt qs r ≠ 0 := by
          rcases hA with h | h
          · exact Or.inl h
          · exact Or.inr (by omega)
        rw [if_pos hA, if_neg hB, if_pos hC,
          hB0, rollSum_of_rollCnt_zero qs r hB0, cnt_of_rollCnt_zero qs r _ hB0,
          wsum_of_rollCnt_zero qs r _ hB0]
        simp only [addOpt, Option.some.injEq, Agg.mk.injEq]
        refine ⟨by omega, by ring⟩
    · have hA0 : rollCnt ps r = 0 := not_not.mp (not_or.mp hA).2
      by_cases hB : r = OuterKey.total ∨ rollCnt qs r ≠ 0
      · have hC : r = OuterKey.total ∨ rollCnt ps r + rollCnt qs r ≠ 0 := by
          rcases hB with h | h
          · exact Or.inl h
          · exact Or.inr (by omega)
        rw [if_neg hA, if_pos hB, if_pos hC,
          hA0, rollSum_of_rollCnt_zero ps r hA0, cnt_of_rollCnt_zero ps r _ hA0,
          wsum_of_rollCnt_zero ps r _ hA0]
        simp only [addOpt, Option.some.injEq, Agg.mk.injEq]
        refine ⟨by omega, by ring⟩
      · have hB0 : rollCnt qs r = 0 := not_not.mp (not_or.mp hB).2
        have hC : ¬ (r = OuterKey.total ∨ rollCnt ps r + rollCnt qs r ≠ 0) := by
          push_neg
          exact ⟨(not_or.mp hA).1, by omega⟩
        rw [if_neg hA, if_neg hB, if_neg hC]
        rfl
  · rw [if_neg hc, if_neg hc, if_neg hc]
    by_cases hA : cnt ps r c = 0
    · by_cases hB : cnt qs r c = 0
      · have hz : cnt ps r c + cnt qs r c = 0 := by omega
        rw [if_pos hA, if_pos hB, if_pos hz]
        rfl
      · have hnz : ¬ (cnt ps r c + cnt qs r c = 0) := by omega
        rw [if_pos hA, if_neg hB, if_neg hnz, hA, wsum_of_cnt_zero ps r c hA]
        simp only [addOpt, Option.some.injEq, Agg.mk.injEq]
        refine ⟨by omega, by ring⟩
    · by_cases hB : cnt qs r c = 0
      · have hnz : ¬ (cnt ps r c + cnt qs r c = 0) := by omega
        rw [if_neg hA, if_pos hB, if_neg hnz, hB, wsum_of_cnt_zero qs r c hB]
        simp only [addOpt, Option.some.injEq, Agg.mk.injEq]
        refine ⟨by omega, by ring⟩
      · have hnz : ¬ (cnt ps r c + cnt qs r c = 0) := by omega
        rw [if_neg hA, if_neg hB, if_neg hnz]
        rfl

theorem mergeTable_lookup (t1 t2 : Table) (r : OuterKey) (c : String) :
    tableLookup (mergeTable t1 t2) r c = addOpt (tableLookup t1 r c) (tableLookup t2 r c) := by
  unfold mergeTable tableLookup mergeBucket
  cases h1 : t1 r with
  | none =>
    cases h2 : t2 r with
    | none => simp [h1, h2, addOpt]
    | some b2 => simp [h1, h2, addOpt]
  | some b1 =>
    cases h2 : t2 r with
    | none => cases hb : b1 c <;> simp [h1, h2, hb, addOpt]
    | some b2 =>
      cases hb1 : b1 c <;> cases hb2 : b2 c <;> simp [h1, h2, hb1, hb2, addOpt]

theorem mergeTable_isSome (t1 t2 : Table) (r : OuterKey) :
    ((mergeTable t1 t2) r).isSome ↔ ((t1 r).isSome ∨ (t2 r).isSome) := by
  unfold mergeTable
  cases h1 : t1 r <;> cases h2 : t2 r <;> simp [h1, h2]

end TFT

/-! ### Lemmas about the pipeline and about placement bounds -/

namespace TFT

theorem pipeline_last_round (ms : List MatchInfo) (p : Player)
    (hp : p ∈ pipeline ms) : p.last_round ∉ excludedRounds := by
  unfold pipeline at hp
  obtain ⟨q, hq, rfl⟩ := List.mem_map.mp hp
  simpa using (List.mem_filter.mp hq).2

theorem rollCnt_pipeline_excluded (ms : List MatchInfo) (n : ℤ)
    (hn : n ∈ excludedRounds) :
    rollCnt (pipeline ms) (OuterKey.round n) = 0 := by
  unfold rollCnt roundPs
  rw [List.length_eq_zero, List.filter_eq_nil]
  intro p hp hcontra
  simp only [Bool.and_eq_true] at hcontra
  have h2 : matchesRound p (OuterKey.round n) = true := hcontra.2
  have h3 : p.last_round = n := by simpa [matchesRound] using h2
  exact pipeline_last_round ms p hp (h3 ▸ hn)

theorem list_sum_bounds (l : List Player)
    (h : ∀ p ∈ l, 1 ≤ p.placement ∧ p.placement ≤ 8) :
    (l.length : ℚ) ≤ (l.map fun p => (p.placement : ℚ)).sum ∧
      (l.map fun p => (p.placement : ℚ)).sum ≤ 8 * (l.length : ℚ) := by
  induction l with
  | nil => simp
  | cons p l ih =>
    have hp := h p (List.mem_cons_self p l)
    have ih' := ih fun q hq => h q (List.mem_cons_of_mem _ hq)
    have hp1 : (1 : ℚ) ≤ (p.placement : ℚ) := by exact_mod_cast hp.1
    have hp8 : (p.placement : ℚ) ≤ 8 := by exact_mod_cast hp.2
    simp only [List.map_cons, List.sum_cons, List.length_cons]
    push_cast
    constructor
    · linarith [ih'.1]
    · linarith [ih'.2]

theorem list_wsum_bounds (l : List Player) (c : String)
    (h : ∀ p ∈ l, 1 ≤ p.placement ∧ p.placement ≤ 8) :
    (((l.map fun p => (keysOf p).count c).sum : ℕ) : ℚ)
        ≤ (l.map fun p => ((keysOf p).count c : ℚ) * (p.placement : ℚ)).sum ∧
      (l.map fun p => ((keysOf p).count c : ℚ) * (p.placement : ℚ)).sum
        ≤ 8 * (((l.map fun p => (keysOf p).count c).sum : ℕ) : ℚ) := by
  induction l with
  | nil => simp
  | cons p l ih =>
    have hp := h p (List.mem_cons_self p l)
    have ih' := ih fun q hq => h q (List.mem_cons_of_mem _ hq)
    have hp1 : (1 : ℚ) ≤ (p.placement : ℚ) := by exact_mod_cast hp.1
    have hp8 : (p.placement : ℚ) ≤ 8 := by exact_mod_cast hp.2
    have hm0 : (0 : ℚ) ≤ ((keysOf p).count c : ℚ) := Nat.cast_nonneg _
    have hlow : ((keysOf p).count c : ℚ) * 1 ≤ ((keysOf p).count c : ℚ) * (p.placement : ℚ) :=
      mul_le_mul_of_nonneg_left hp1 hm0
    have hhigh : ((keysOf p).count c : ℚ) * (p.placement : ℚ) ≤ ((keysOf p).count c : ℚ) * 8 :=
      mul_le_mul_of_nonneg_left hp8 hm0
    simp only [List.map_cons, List.sum_cons]
    rw [Nat.cast_add]
    constructor
    · linarith [ih'.1]
    · linarith [ih'.2]

theorem rollSum_bounds (ps : List Player) (r : OuterKey)
    (h : ∀ p ∈ ps, 1 ≤ p.placement ∧ p.placement ≤ 8) :
    (rollCnt ps r : ℚ) ≤ rollSum ps r ∧ rollSum ps r ≤ 8 * (rollCnt ps r : ℚ) := by
  unfold rollCnt rollSum
  exact list_sum_bounds (roundPs ps r)
    fun p hp => h p (List.mem_filter.mp hp).1

theorem wsum_bounds (ps : List Player) (r : OuterKey) (c : String)
    (h : ∀ p ∈ ps, 1 ≤ p.placement ∧ p.placement ≤ 8) :
    (cnt ps r c : ℚ) ≤ wsum ps r c ∧ wsum ps r c ≤ 8 * (cnt ps r c : ℚ) := by
  unfold cnt wsum
  exact list_wsum_bounds (roundPs ps r) c
    fun p hp => h p (List.mem_filter.mp hp).1

theorem div_in_range (n : ℕ) (s : ℚ) (hn : n ≠ 0)
    (hlow : (n : ℚ) ≤ s) (hhigh : s ≤ 8 * (n : ℚ)) :
    1 ≤ s / (n : ℚ) ∧ s / (n : ℚ) ≤ 8 := by
  have hpos : (0 : ℚ) < (n : ℚ) := by
    have : 0 < n := Nat.pos_of_ne_zero hn
    exact_mod_cast this
  constructor
  · rw [le_div_iff hpos]
    linarith
  · rw [div_le_iff hpos]
    linarith

theorem rollCnt_pos (ps : List Player) (hex : ∃ p ∈ ps, accepted p) :
    1 ≤ rollCnt ps OuterKey.total := by
  obtain ⟨p, hp, hacc⟩ := hex
  have hmem : p ∈ roundPs ps OuterKey.total := by
    rw [roundPs, List.mem_filter]
    refine ⟨hp, ?_⟩
    simp only [accepted] at hacc
    simp [matchesRound, hacc]
  have hne : roundPs ps OuterKey.total ≠ [] := List.ne_nil_of_mem hmem
  have : rollCnt ps OuterKey.total ≠ 0 := fun h0 => hne (roundPs_eq_nil _ _ h0)
  omega

theorem lookup_count_pos (ps : List Player) (hex : ∃ p ∈ ps, accepted p)
    (r : OuterKey) (c : String) (a : Agg)
    (h : tableLookup (foldAll ps) r c = some a) : 1 ≤ a.count := by
  rw [foldAll_lookup] at h
  unfold specLookup at h
  have hroll := rollCnt_pos ps hex
  by_cases hc : c = "total"
  · rw [if_pos hc] at h
    by_cases hp : r = OuterKey.total ∨ rollCnt ps r ≠ 0
    · rw [if_pos hp] at h
      simp only [Option.some.injEq] at h
      subst h
      show 1 ≤ rollCnt ps r + cnt ps r c
      rcases hp with rfl | h0
      · omega
      · omega
    · rw [if_neg hp] at h
      exact absurd h (by simp)
  · rw [if_neg hc] at h
    by_cases hz : cnt ps r c = 0
    · rw [if_pos hz] at h
      exact absurd h (by simp)
    · rw [if_neg hz] at h
      simp only [Option.some.injEq] at h
      subst h
      show 1 ≤ cnt ps r c
      omega

theorem lookup_sum_bounds (ps : List Player)
    (hpl : ∀ p ∈ ps, 1 ≤ p.placement ∧ p.placement ≤ 8)
    (r : OuterKey) (c : String) (a : Agg)
    (h : tableLookup (foldAll ps) r c = some a) :
    (a.count : ℚ) ≤ a.avg_place ∧ a.avg_place ≤ 8 * (a.count : ℚ) := by
  rw [foldAll_lookup] at h
  unfold specLookup at h
  have hrb := rollSum_bounds ps r hpl
  have hwb := wsum_bounds ps r c hpl
  by_cases hc : c = "total"
  · rw [if_pos hc] at h
    by_cases hp : r = OuterKey.total ∨ rollCnt ps r ≠ 0
    · rw [if_pos hp] at h
      simp only [Option.some.injEq] at h
      subst h
      constructor
      · show ((rollCnt ps r + cnt ps r c : ℕ) : ℚ) ≤ rollSum ps r + wsum ps r c
        push_cast
        linarith [hrb.1, hwb.1]
      · show rollSum ps r + wsum ps r c ≤ 8 * ((rollCnt ps r + cnt ps r c : ℕ) : ℚ)
        push_cast
        linarith [hrb.2, hwb.2]
    · rw [if_neg hp] at h
      exact absurd h (by simp)
  · rw [if_neg hc] at h
    by_cases hz : cnt ps r c = 0
    · rw [if_pos hz] at h
      exact absurd h (by simp)
    · rw [if_neg hz] at h
      simp only [Option.some.injEq] at h
      subst h
      exact ⟨hwb.1, hwb.2⟩

end TFT

/-! ### The claims -/

namespace TFT

/-- C1: for the input stream of exactly the two accepted shaped records
`{lastRound: 5, placement: 2, units: ["Ashe","Jinx"]}` and
`{lastRound: 5, placement: 4, units: ["Ashe"]}`, folding both records and
then running the finalization pass yields `table[5]["Ashe"] = {2, 3}`,
`table[5]["Jinx"] = {1, 2}`, `table[5]["total"] = {2, 3}`,
`table["total"]["Ashe"] = {2, 3}` and `table["total"]["total"] = {2, 3}`. -/
theorem C1_end_to_end_example :
    tableLookup (finalize (foldAll [Player.mk 2 ["Ashe", "Jinx"] 5 2, Player.mk 1 ["Ashe"] 5 4]))
        (OuterKey.round 5) "Ashe" = some ⟨2, 3⟩ ∧
      tableLookup (finalize (foldAll [Player.mk 2 ["Ashe", "Jinx"] 5 2, Player.mk 1 ["Ashe"] 5 4]))
        (OuterKey.round 5) "Jinx" = some ⟨1, 2⟩ ∧
      tableLookup (finalize (foldAll [Player.mk 2 ["Ashe", "Jinx"] 5 2, Player.mk 1 ["Ashe"] 5 4]))
        (OuterKey.round 5) "total" = some ⟨2, 3⟩ ∧
      tableLookup (finalize (foldAll [Player.mk 2 ["Ashe", "Jinx"] 5 2, Player.mk 1 ["Ashe"] 5 4]))
        OuterKey.total "Ashe" = some ⟨2, 3⟩ ∧
      tableLookup (finalize (foldAll [Player.mk 2 ["Ashe", "Jinx"] 5 2, Player.mk 1 ["Ashe"] 5 4]))
        OuterKey.total "total" = some ⟨2, 3⟩ := by
  refine ⟨?_, ?_, ?_, ?_, ?_⟩ <;>
    first
      | (simp +decide [tableLookup, finalize, foldAll, foldStep, keyStep, totalStage,
          roundStage, keysOf, lastSegment, upsert, bumpExisting, updateOuter, initTable]
         norm_num)
      | simp +decide [tableLookup, finalize, foldAll, foldStep, keyStep, totalStage,
          roundStage, keysOf, lastSegment, upsert, bumpExisting, updateOuter, initTable]

end TFT

namespace TFT

/-- C2 counterexample: one accepted record with the two distinct raw unit
ids `"TFT4_Ashe"` and `"TFT5_Ashe"` (both of trailing segment `"Ashe"`) has
its lastRound-5 bucket show `count = 2` for `"Ashe"`, while only one
accepted record with `lastRound = 5` has `"Ashe"` among its derived champion
keys — so the claimed count equality fails. -/
theorem C2_count_conservation_cex :
    recCnt [Player.mk 2 ["TFT4_Ashe", "TFT5_Ashe"] 5 2] (OuterKey.round 5) "Ashe" = 1 ∧
      (tableLookup (finalize (foldAll [Player.mk 2 ["TFT4_Ashe", "TFT5_Ashe"] 5 2]))
          (OuterKey.round 5) "Ashe").map Agg.count = some 2 ∧
      (tableLookup (finalize (foldAll [Player.mk 2 ["TFT4_Ashe", "TFT5_Ashe"] 5 2]))
          (OuterKey.round 5) "Ashe").map Agg.count
        ≠ some (recCnt [Player.mk 2 ["TFT4_Ashe", "TFT5_Ashe"] 5 2] (OuterKey.round 5) "Ashe") := by
  refine ⟨by decide, ?_, ?_⟩ <;>
    simp +decide [tableLookup, finalize, foldAll, foldStep, keyStep, totalStage,
      roundStage, keysOf, lastSegment, upsert, bumpExisting, updateOuter, initTable,
      recCnt, roundPs, matchesRound]

/-- C2 (amended): for every stream and every entry present in the finalized
table, `table[r][c].count` equals the total number of occurrences of the key
`c` among the derived champion keys of the accepted records falling under
`r`, plus — when `c` is the sentinel `"total"` — the number of accepted
records falling under `r` (for `r = "total"`: all accepted records). -/
theorem C2_count_conservation (ps : List Player) (r : OuterKey) (c : String)
    (a : Agg) (h : tableLookup (finalize (foldAll ps)) r c = some a) :
    a.count = (if c = "total" then rollCnt ps r else 0) + cnt ps r c := by
  rw [finalize_lookup, foldAll_lookup] at h
  obtain ⟨a0, ha0, rfl⟩ := Option.map_eq_some'.mp h
  unfold specLookup at ha0
  by_cases hc : c = "total"
  · rw [if_pos hc] at ha0
    rw [if_pos hc]
    by_cases hp : r = OuterKey.total ∨ rollCnt ps r ≠ 0
    · rw [if_pos hp] at ha0
      simp only [Option.some.injEq] at ha0
      subst ha0
      rfl
    · rw [if_neg hp] at ha0
      exact absurd ha0 (by simp)
  · rw [if_neg hc] at ha0
    rw [if_neg hc]
    by_cases hz : cnt ps r c = 0
    · rw [if_pos hz] at ha0
      exact absurd ha0 (by simp)
    · rw [if_neg hz] at ha0
      simp only [Option.some.injEq] at ha0
      subst ha0
      show cnt ps r c = 0 + cnt ps r c
      omega

/-- Witness for C2 (amended) at the stream `[⟨1, ["Ashe"], 3, 5⟩]` and the
entry `(3, "Ashe")`. -/
theorem C2_count_conservation_witness :
    tableLookup (finalize (foldAll [Player.mk 1 ["Ashe"] 3 5])) (OuterKey.round 3) "Ashe"
        = some ⟨1, 5⟩ ∧
      (Agg.mk 1 5).count
        = (if ("Ashe" : String) = "total" then rollCnt [Player.mk 1 ["Ashe"] 3 5] (OuterKey.round 3) else 0)
            + cnt [Player.mk 1 ["Ashe"] 3 5] (OuterKey.round 3) "Ashe" := by
  have h : tableLookup (finalize (foldAll [Player.mk 1 ["Ashe"] 3 5])) (OuterKey.round 3) "Ashe"
      = some ⟨1, 5⟩ := by
    simp +decide [tableLookup, finalize, foldAll, foldStep, keyStep, totalStage,
      roundStage, keysOf, lastSegment, upsert, bumpExisting, updateOuter, initTable]
  exact ⟨h, C2_count_conservation _ _ _ _ h⟩

/-- C3 counterexample: the record with `units = ["TFT4_Ashe", "TFT5_Ashe"]`
and `numUnits = 2` passes the duplicate-unit guard (the raw ids are
distinct), yet its derived champion key list `["Ashe", "Ashe"]` has a
duplicate, and the aggregate of `"Ashe"` is incremented twice by this one
record. -/
theorem C3_keys_nodup_cex :
    accepted (Player.mk 2 ["TFT4_Ashe", "TFT5_Ashe"] 5 2) ∧
      ¬ (keysOf (Player.mk 2 ["TFT4_Ashe", "TFT5_Ashe"] 5 2)).Nodup ∧
      (tableLookup (foldAll [Player.mk 2 ["TFT4_Ashe", "TFT5_Ashe"] 5 2])
          (OuterKey.round 5) "Ashe").map Agg.count = some 2 := by
  refine ⟨by decide, by decide, ?_⟩
  simp +decide [tableLookup, foldAll, foldStep, keyStep, totalStage,
    roundStage, keysOf, lastSegment, upsert, bumpExisting, updateOuter, initTable]

/-- C3 (amended): a record passing the duplicate-unit guard has duplicate
free raw unit identifiers (provided `numUnits` is the length of the unit
list, as the pipeline guarantees); its derived champion key list is
duplicate-free whenever the trailing-segment map is injective on the
record's unit identifiers — distinct raw ids may otherwise share one
trailing segment, making that champion's aggregate be incremented more than
once by the record. -/
theorem C3_keys_nodup (p : Player)
    (h1 : p.units.dedup.length = p.num_units)
    (h2 : p.num_units = p.units.length) :
    p.units.Nodup ∧
      ((∀ x ∈ p.units, ∀ y ∈ p.units, lastSegment x = lastSegment y → x = y) →
        (keysOf p).Nodup) := by
  have hnd : p.units.Nodup := by
    have hsub : p.units.dedup.Sublist p.units := List.dedup_sublist _
    have hlen : p.units.dedup.length = p.units.length := by omega
    have heq : p.units.dedup = p.units := List.Sublist.eq_of_length hsub hlen
    rw [← heq]
    exact List.nodup_dedup _
  exact ⟨hnd, fun hinj => List.Nodup.map_on hinj hnd⟩

/-- Witness for C3 (amended) at the record
`⟨2, ["TFT4_Ashe", "TFT4_Jinx"], 5, 2⟩`. -/
theorem C3_keys_nodup_witness :
    (Player.mk 2 ["TFT4_Ashe", "TFT4_Jinx"] 5 2).units.Nodup ∧
      ((∀ x ∈ (Player.mk 2 ["TFT4_Ashe", "TFT4_Jinx"] 5 2).units,
          ∀ y ∈ (Player.mk 2 ["TFT4_Ashe", "TFT4_Jinx"] 5 2).units,
            lastSegment x = lastSegment y → x = y) →
        (keysOf (Player.mk 2 ["TFT4_Ashe", "TFT4_Jinx"] 5 2)).Nodup) :=
  C3_keys_nodup (Player.mk 2 ["TFT4_Ashe", "TFT4_Jinx"] 5 2) (by decide) (by decide)

/-- C4 counterexample: on the empty stream the table handed to the
Finalizer still contains the pre-seeded `results['total']['total']` with
`count = 0`, so not every aggregate present has `count ≥ 1` (and the
Finalizer's division is by zero there). -/
theorem C4_count_pos_cex :
    tableLookup (foldAll ([] : List Player)) OuterKey.total "total" = some ⟨0, 0⟩ ∧
      ¬ (∀ (r : OuterKey) (c : String) (a : Agg),
          tableLookup (foldAll ([] : List Player)) r c = some a → 1 ≤ a.count) := by
  have h : tableLookup (foldAll ([] : List Player)) OuterKey.total "total" = some ⟨0, 0⟩ := by
    simp +decide [tableLookup, foldAll, initTable]
  exact ⟨h, fun hall => absurd (hall _ _ _ h) (by decide)⟩

/-- C4 (amended): for every input stream in which at least one record
passes the duplicate-unit guard, every aggregate present in the table when
the Finalizer pass begins has `count ≥ 1` (on a stream with no accepted
record the pre-seeded global rollup still has `count = 0`). -/
theorem C4_count_pos (ps : List Player) (hex : ∃ p ∈ ps, accepted p)
    (r : OuterKey) (c : String) (a : Agg)
    (h : tableLookup (foldAll ps) r c = some a) : 1 ≤ a.count :=
  lookup_count_pos ps hex r c a h

/-- Witness for C4 (amended) at the stream `[⟨1, ["Ashe"], 3, 1⟩]` and the
entry `("total", "total")`. -/
theorem C4_count_pos_witness :
    (∃ p ∈ [Player.mk 1 ["Ashe"] 3 1], accepted p) ∧
      tableLookup (foldAll [Player.mk 1 ["Ashe"] 3 1]) OuterKey.total "total" = some ⟨1, 1⟩ ∧
      1 ≤ (Agg.mk 1 1).count := by
  have h : tableLookup (foldAll [Player.mk 1 ["Ashe"] 3 1]) OuterKey.total "total"
      = some ⟨1, 1⟩ := by
    simp +decide [tableLookup, foldAll, foldStep, keyStep, totalStage,
      roundStage, keysOf, lastSegment, upsert, bumpExisting, updateOuter, initTable]
  exact ⟨by decide, h, C4_count_pos _ (by decide) _ _ _ h⟩

/-- C5: a shaped record whose number of distinct unit identifiers differs
from its `numUnits` is discarded by the guard at script line 157: folding
it leaves the entire table (every aggregate, rollups included) unchanged. -/
theorem C5_duplicate_discard (t : Table) (p : Player)
    (h : p.units.dedup.length ≠ p.num_units) : foldStep t p = t :=
  foldStep_rejected t p h

/-- Witness for C5 at the record `⟨3, ["Ashe", "Ashe", "Jinx"], 5, 2⟩` and
the pre-seeded table. -/
theorem C5_duplicate_discard_witness :
    (Player.mk 3 ["Ashe", "Ashe", "Jinx"] 5 2).units.dedup.length
        ≠ (Player.mk 3 ["Ashe", "Ashe", "Jinx"] 5 2).num_units ∧
      foldStep initTable (Player.mk 3 ["Ashe", "Ashe", "Jinx"] 5 2) = initTable :=
  ⟨by decide, C5_duplicate_discard initTable _ (by decide)⟩

end TFT

namespace TFT

/-- C6: folding batch A then batch B into the pre-seeded table and
finalizing gives the same finalized table as folding B then A, and the same
as finalizing the pairwise `{count, sum}`-addition merge of the two tables
obtained by folding A and B independently. -/
theorem C6_commutative_merge (psA psB : List Player) :
    finalize (foldAll (psA ++ psB)) = finalize (foldAll (psB ++ psA)) ∧
      finalize (foldAll (psA ++ psB))
        = finalize (mergeTable (foldAll psA) (foldAll psB)) := by
  constructor
  · refine congrArg finalize (table_ext _ _ ?_ ?_)
    · intro r
      rw [foldAll_outer_isSome, foldAll_outer_isSome, rollCnt_append, rollCnt_append,
        Nat.add_comm]
    · intro r c
      rw [foldAll_lookup, foldAll_lookup]
      exact specLookup_comm psB psA r c
  · refine congrArg finalize (table_ext (foldAll (psA ++ psB))
      (mergeTable (foldAll psA) (foldAll psB)) ?_ ?_)
    · intro r
      rw [foldAll_outer_isSome, mergeTable_isSome, foldAll_outer_isSome,
        foldAll_outer_isSome, rollCnt_append]
      constructor
      · rintro (h | h)
        · exact Or.inl (Or.inl h)
        · by_cases hA : rollCnt psA r = 0
          · exact Or.inr (Or.inr (by omega))
          · exact Or.inl (Or.inr hA)
      · rintro ((h | h) | (h | h))
        · exact Or.inl h
        · exact Or.inr (by omega)
        · exact Or.inl h
        · exact Or.inr (by omega)
    · intro r c
      rw [foldAll_lookup, mergeTable_lookup, foldAll_lookup, foldAll_lookup,
        specLookup_merge]

/-- C7 counterexample: for the single record `⟨1, ["Zed"], 7, 2⟩` the
correctly finalized average of the entry `(7, "Zed")` is `2`, and a second
Finalizer pass leaves it at `2` (its count is 1), not at half that value —
running the Finalizer twice does not halve every average. -/
theorem C7_double_finalize_cex :
    tableLookup (finalize (foldAll [Player.mk 1 ["Zed"] 7 2])) (OuterKey.round 7) "Zed"
        = some ⟨1, 2⟩ ∧
      tableLookup (finalize (finalize (foldAll [Player.mk 1 ["Zed"] 7 2]))) (OuterKey.round 7) "Zed"
        = some ⟨1, 2⟩ ∧
      ¬ ((2 : ℚ) = 2 / 2) := by
  refine ⟨?_, ?_, by norm_num⟩ <;>
    simp +decide [tableLookup, finalize, foldAll, foldStep, keyStep, totalStage,
      roundStage, keysOf, lastSegment, upsert, bumpExisting, updateOuter, initTable]

/-- C7 (amended): a second Finalizer pass divides every entry's (already
finalized) average by its count once more — each aggregate `⟨n, s⟩` of the
fold becomes `⟨n, s / n⟩` after one pass and `⟨n, s / n / n⟩` after two, so
the second pass halves exactly the entries with `count = 2` and corrupts
every entry with `count ≠ 1`. -/
theorem C7_double_finalize (t : Table) (r : OuterKey) (c : String) (a : Agg)
    (h : tableLookup t r c = some a) :
    tableLookup (finalize t) r c = some ⟨a.count, a.avg_place / (a.count : ℚ)⟩ ∧
      tableLookup (finalize (finalize t)) r c
        = some ⟨a.count, a.avg_place / (a.count : ℚ) / (a.count : ℚ)⟩ := by
  constructor
  · rw [finalize_lookup, h]
    rfl
  · rw [finalize_lookup, finalize_lookup, h]
    rfl

/-- Witness for C7 (amended) at the fold of the single record
`⟨1, ["Zed"], 7, 2⟩` and the entry `(7, "Zed")`. -/
theorem C7_double_finalize_witness :
    tableLookup (foldAll [Player.mk 1 ["Zed"] 7 2]) (OuterKey.round 7) "Zed" = some ⟨1, 2⟩ ∧
      tableLookup (finalize (foldAll [Player.mk 1 ["Zed"] 7 2])) (OuterKey.round 7) "Zed"
        = some ⟨1, (2 : ℚ) / ((1 : ℕ) : ℚ)⟩ ∧
      tableLookup (finalize (finalize (foldAll [Player.mk 1 ["Zed"] 7 2]))) (OuterKey.round 7) "Zed"
        = some ⟨1, (2 : ℚ) / ((1 : ℕ) : ℚ) / ((1 : ℕ) : ℚ)⟩ := by
  have h : tableLookup (foldAll [Player.mk 1 ["Zed"] 7 2]) (OuterKey.round 7) "Zed"
      = some ⟨1, 2⟩ := by
    simp +decide [tableLookup, foldAll, foldStep, keyStep, totalStage,
      roundStage, keysOf, lastSegment, upsert, bumpExisting, updateOuter, initTable]
  have h2 := C7_double_finalize (foldAll [Player.mk 1 ["Zed"] 7 2]) (OuterKey.round 7) "Zed"
    (Agg.mk 1 2) h
  exact ⟨h, h2.1, h2.2⟩

/-- C8: a raw participant whose `last_round` is in the fixed exclusion set
`{11,15,18,22,25,29,32,36,39,43,46,50}` is dropped by the pipeline's `$nin`
filter, so no member of that set ever appears as an outer round key of the
output table. -/
theorem C8_excluded_round_absent (ms : List MatchInfo) (n : ℤ)
    (hn : n ∈ excludedRounds) :
    (finalize (foldAll (pipeline ms))) (OuterKey.round n) = none := by
  rw [finalize_none, ← Option.not_isSome_iff_eq_none, foldAll_outer_isSome]
  rintro (h1 | h2)
  · exact OuterKey.noConfusion h1
  · exact h2 (rollCnt_pipeline_excluded ms n hn)

/-- Witness for C8: a ranked match whose one (6-unit) participant died on
round 15 contributes nothing, and round 15 is absent from the table. -/
theorem C8_excluded_round_absent_witness :
    (15 : ℤ) ∈ excludedRounds ∧
      (finalize (foldAll (pipeline
        [MatchInfo.mk 1100 [Participant.mk
          [MatchUnit.mk "TFT4_Ashe", MatchUnit.mk "TFT4_Jinx", MatchUnit.mk "TFT4_Zed",
           MatchUnit.mk "TFT4_Vi", MatchUnit.mk "TFT4_Sett", MatchUnit.mk "TFT4_Lux"]
          15 3]]))) (OuterKey.round 15) = none :=
  ⟨by decide, C8_excluded_round_absent _ 15 (by decide)⟩

end TFT

namespace TFT

/-- C9 counterexample: the non-empty stream holding only the record
`⟨2, ["Vi", "Vi"], 9, 2⟩` (placement 2, within 1..8) has no accepted
record, so the finalized table still holds the pre-seeded global rollup
with `count = 0` and `avg_place = 0` (a 0/0 division in exact arithmetic),
which lies outside [1, 8]. -/
theorem C9_avg_bounds_cex :
    ([Player.mk 2 ["Vi", "Vi"] 9 2] ≠ ([] : List Player)) ∧
      (∀ p ∈ [Player.mk 2 ["Vi", "Vi"] 9 2], 1 ≤ p.placement ∧ p.placement ≤ 8) ∧
      tableLookup (finalize (foldAll [Player.mk 2 ["Vi", "Vi"] 9 2])) OuterKey.total "total"
        = some ⟨0, 0⟩ ∧
      ¬ (1 ≤ (Agg.mk 0 0).avg_place) := by
  refine ⟨by decide, by decide, ?_, by norm_num⟩
  simp +decide [tableLookup, finalize, foldAll, foldStep, keyStep, totalStage,
    roundStage, keysOf, lastSegment, upsert, bumpExisting, updateOuter, initTable]

/-- C9 (amended): for every stream in which at least one record passes the
duplicate-unit guard and in which every record's placement lies in 1..8,
every `avg_place` in the finalized table lies within [1, 8] inclusive
(exact rational arithmetic). -/
theorem C9_avg_bounds (ps : List Player)
    (hex : ∃ p ∈ ps, accepted p)
    (hpl : ∀ p ∈ ps, 1 ≤ p.placement ∧ p.placement ≤ 8)
    (r : OuterKey) (c : String) (a : Agg)
    (h : tableLookup (finalize (foldAll ps)) r c = some a) :
    1 ≤ a.avg_place ∧ a.avg_place ≤ 8 := by
  rw [finalize_lookup] at h
  obtain ⟨a0, ha0, rfl⟩ := Option.map_eq_some'.mp h
  have hcp := lookup_count_pos ps hex r c a0 ha0
  have hb := lookup_sum_bounds ps hpl r c a0 ha0
  exact div_in_range a0.count a0.avg_place (by omega) hb.1 hb.2

/-- Witness for C9 (amended) on the stream `[⟨1, ["Ashe"], 3, 5⟩]` and the
entry `(3, "Ashe")` (average 5). -/
theorem C9_avg_bounds_witness :
    (∃ p ∈ [Player.mk 1 ["Ashe"] 3 5], accepted p) ∧
      (∀ p ∈ [Player.mk 1 ["Ashe"] 3 5], 1 ≤ p.placement ∧ p.placement ≤ 8) ∧
      tableLookup (finalize (foldAll [Player.mk 1 ["Ashe"] 3 5])) (OuterKey.round 3) "Ashe"
        = some ⟨1, 5⟩ ∧
      (1 ≤ (Agg.mk 1 5).avg_place ∧ (Agg.mk 1 5).avg_place ≤ 8) := by
  have h : tableLookup (finalize (foldAll [Player.mk 1 ["Ashe"] 3 5])) (OuterKey.round 3) "Ashe"
      = some ⟨1, 5⟩ := by
    simp +decide [tableLookup, finalize, foldAll, foldStep, keyStep, totalStage,
      roundStage, keysOf, lastSegment, upsert, bumpExisting, updateOuter, initTable]
  exact ⟨by decide, by decide, h, C9_avg_bounds _ (by decide) (by decide) _ _ _ h⟩

/-- C10: the bucket invariant — every outer key present in the table maps
to a bucket containing the inner key `"total"` — holds for the pre-seeded
initial table and is preserved by every fold step (round buckets are
created with a `"total"` entry before any champion entry is added). -/
theorem C10_total_key_invariant :
    TableInv initTable ∧
      ∀ (t : Table) (p : Player), TableInv t → TableInv (foldStep t p) :=
  ⟨tableInv_initTable, tableInv_foldStep⟩

/-- Witness for C10: the invariant at the initial table and after folding
the record `⟨1, ["Ashe"], 3, 1⟩` into it. -/
theorem C10_total_key_invariant_witness :
    TableInv initTable ∧ TableInv (foldStep initTable (Player.mk 1 ["Ashe"] 3 1)) :=
  ⟨C10_total_key_invariant.1,
    C10_total_key_invariant.2 initTable (Player.mk 1 ["Ashe"] 3 1)
      C10_total_key_invariant.1⟩

end TFT
